import Mathlib

/-!
Verification of the timeline algebra, speech segmentation and subtitle
combination code of the waddle audio pipeline.

The Python sources are shallowly embedded:

* `src/waddle/processing/combine.py` — `adjust_pos_to_timeline`,
  `merge_timelines`, `parse_srt`, `combine_srt_files`.
* `src/waddle/processing/segment.py` — `SegmentsProcessor._detect_raw_timeline`,
  `_merge_raw_timeline`, `_calculate_gain_adjustment`, `from_audio`.
* `src/waddle/audios/align_offset.py` — `shift_audio`.

Machine integers are modelled as `Int`/`Nat` (Python integers are unbounded),
audio sample arrays as `List Int`, loudness values as `ℚ`, and audio content
is abstracted to the Boolean/numeric observations the code makes of it
(`chunk.dBFS > threshold_db` becomes an arbitrary per-chunk predicate,
`segment.dBFS` an arbitrary per-slice rational).
-/

namespace Waddle

/-- A speech segment `(start_ms, end_ms)`, matching the Python type alias
`SpeechSegment = tuple[int, int]`. -/
abbrev Seg (α : Type) := α × α

/-- The body of the coalescing merge loop shared by
`combine.merge_timelines` and `SegmentsProcessor._merge_raw_timeline`:
`cur` is the interval currently sitting at `merged[-1]`; each further
segment is either appended (when `merged[-1][1] < seg[0]`) or folded into
`cur` by `merged[-1] = (merged[-1][0], max(merged[-1][1], seg[1]))`. -/
def mergeGo [LinearOrder α] (cur : Seg α) : List (Seg α) → List (Seg α)
  | [] => [cur]
  | s :: rest =>
    if cur.2 < s.1 then cur :: mergeGo s rest
    else mergeGo (cur.1, max cur.2 s.2) rest

/-- The coalescing merge loop over a whole list, starting from an empty
`merged` accumulator (both Python merge loops append the first segment
unconditionally because `merged`/`timeline` starts empty). -/
def mergePass [LinearOrder α] : List (Seg α) → List (Seg α)
  | [] => []
  | s :: rest => mergeGo s rest

/-- Model of `SegmentsProcessor._merge_raw_timeline` from `segment.py`: the plain
coalescing merge pass, applied to the raw detector output. -/
def merge_raw_timeline (raw : List (Seg Nat)) : List (Seg Nat) :=
  mergePass raw

/-- Total lexicographic order on segments, used to model the
`list(set(all_segments))` / `all_segments.sort(key=lambda x: x[0])` step of
`merge_timelines`.  Python sorts stably by start only, with ties left in the
(unspecified) set-iteration order; sorting ties by the end component is one
concrete realization of that unspecified order. -/
def lexLe [LinearOrder α] (a b : Seg α) : Prop :=
  a.1 < b.1 ∨ (a.1 = b.1 ∧ a.2 ≤ b.2)

instance [LinearOrder α] : DecidableRel (lexLe (α := α)) := fun _ _ =>
  inferInstanceAs (Decidable (_ ∨ _))

instance [LinearOrder α] : IsTrans (Seg α) lexLe where
  trans a b c hab hbc := by
    rcases hab with h | ⟨h1, h2⟩ <;> rcases hbc with h' | ⟨h1', h2'⟩
    · exact Or.inl (h.trans h')
    · exact Or.inl (h1' ▸ h)
    · exact Or.inl (h1 ▸ h')
    · exact Or.inr ⟨h1.trans h1', h2.trans h2'⟩

instance [LinearOrder α] : IsTotal (Seg α) lexLe where
  total a b := by
    rcases lt_trichotomy a.1 b.1 with h | h | h
    · exact Or.inl (Or.inl h)
    · rcases le_total a.2 b.2 with h2 | h2
      · exact Or.inl (Or.inr ⟨h, h2⟩)
      · exact Or.inr (Or.inr ⟨h.symm, h2⟩)
    · exact Or.inr (Or.inl h)

instance [LinearOrder α] : IsAntisymm (Seg α) lexLe where
  antisymm a b hab hba := by
    rcases hab with h | ⟨h1, h2⟩ <;> rcases hba with h' | ⟨h1', h2'⟩
    · exact absurd (h.trans h') (lt_irrefl _)
    · exact absurd h (h1' ▸ lt_irrefl _)
    · exact absurd h' (h1 ▸ lt_irrefl _)
    · exact Prod.ext h1 (le_antisymm h2 h2')

/-- Model of `combine.merge_timelines`: flatten every track's timeline, de-duplicate
exact pairs (`list(set(...))`), sort by start (ties canonicalized
lexicographically, see `lexLe`), then run the coalescing merge pass. -/
def merge_timelines (timelines : List (List (Seg Int))) : List (Seg Int) :=
  mergePass (List.insertionSort lexLe (List.dedup timelines.flatten))

/-- The loop body of `combine.adjust_pos_to_timeline`, carrying the Python
`running_total` accumulator: for each `(start, end)` pair, return the
accumulator if `pos <= start`, return `running_total + (pos - start)` if
`start < pos <= end`, otherwise add `end - start` and continue. -/
def adjustAux : List (Seg Int) → Int → Int → Int
  | [], _, running_total => running_total
  | (s, e) :: rest, pos, running_total =>
    if pos ≤ s then running_total
    else if pos ≤ e then running_total + (pos - s)
    else adjustAux rest pos (running_total + (e - s))

/-- Model of `combine.adjust_pos_to_timeline`, starting from `running_total = 0`. -/
def adjust_pos_to_timeline (timeline : List (Seg Int)) (pos : Int) : Int :=
  adjustAux timeline pos 0

/-- First phase of `align_offset.shift_audio`: build `shifted` from the
candidate waveform. Positive offset: prepend `offset` zero samples
(`np.pad(spk_audio, (offset, 0))`); negative offset: drop `abs(offset)`
leading samples, or all silence of the reference length when
`skip >= len(spk_audio)`; zero offset: unchanged. -/
def shiftPhase (spk_audio : List Int) (offset : Int) (ref_length : Nat) : List Int :=
  if 0 < offset then List.replicate offset.toNat 0 ++ spk_audio
  else if offset < 0 then
    if spk_audio.length ≤ offset.natAbs then List.replicate ref_length 0
    else spk_audio.drop offset.natAbs
  else spk_audio

/-- Second phase of `align_offset.shift_audio`: truncate when longer than the
reference, zero-pad at the back when shorter. -/
def fitLength (shifted : List Int) (ref_length : Nat) : List Int :=
  if ref_length < shifted.length then shifted.take ref_length
  else if shifted.length < ref_length then
    shifted ++ List.replicate (ref_length - shifted.length) 0
  else shifted

/-- Model of `align_offset.shift_audio`: shift the candidate by `offset` samples and
force the result to the reference length. -/
def shift_audio (spk_audio : List Int) (offset : Int) (ref_length : Nat) : List Int :=
  fitLength (shiftPhase spk_audio offset ref_length) ref_length

/-- Chunk start positions scanned by `_detect_raw_timeline`, i.e. Python's
`range(0, duration, chunk_size_ms)` for a positive chunk size. -/
def chunkStarts (duration chunk_size_ms : Nat) : List Nat :=
  (List.range ((duration + chunk_size_ms - 1) / chunk_size_ms)).map (fun k => k * chunk_size_ms)

/-- One iteration of the `_detect_raw_timeline` loop. The audio is abstracted
to the one observation the code makes per chunk, `chunk.dBFS > threshold_db`,
modelled by the arbitrary predicate `loud` on the chunk start. On a loud
chunk, `start_ms = max(0, i - buffer_size_ms)` (truncated `Nat` subtraction)
and `end_ms = min(duration, i + chunk_size_ms + buffer_size_ms)`; an open
interval is extended, otherwise one is opened. On a quiet chunk an open
interval is closed and appended. -/
def detectStep (loud : Nat → Bool) (duration chunk_size_ms buffer_size_ms : Nat)
    (state : List (Seg Nat) × Option (Seg Nat)) (i : Nat) :
    List (Seg Nat) × Option (Seg Nat) :=
  if loud i then
    match state.2 with
    | none => (state.1, some (i - buffer_size_ms, min duration (i + chunk_size_ms + buffer_size_ms)))
    | some cur => (state.1, some (cur.1, min duration (i + chunk_size_ms + buffer_size_ms)))
  else
    match state.2 with
    | none => state
    | some cur => (state.1 ++ [cur], none)

/-- Model of `SegmentsProcessor._detect_raw_timeline`: run the chunk loop and flush a
still-open interval at the end of the track. -/
def detect_raw_timeline (loud : Nat → Bool) (duration chunk_size_ms buffer_size_ms : Nat) :
    List (Seg Nat) :=
  match ((chunkStarts duration chunk_size_ms).foldl
      (detectStep loud duration chunk_size_ms buffer_size_ms) ([], none)).2 with
  | none => ((chunkStarts duration chunk_size_ms).foldl
      (detectStep loud duration chunk_size_ms buffer_size_ms) ([], none)).1
  | some cur => ((chunkStarts duration chunk_size_ms).foldl
      (detectStep loud duration chunk_size_ms buffer_size_ms) ([], none)).1 ++ [cur]

/-- Model of `np.percentile(xs, 95)` with the default linear interpolation, over exact
rationals: sort ascending, take the value at fractional rank
`95 * (n - 1) / 100`. -/
def percentile95 (xs : List ℚ) : ℚ :=
  let sorted := List.insertionSort (· ≤ ·) xs
  let pos : ℚ := 95 * ((sorted.length : ℚ) - 1) / 100
  let lower := pos.floor.toNat
  let vlow := sorted.getD lower 0
  let vhigh := sorted.getD (lower + 1) vlow
  vlow + (pos - (pos.floor : ℚ)) * (vhigh - vlow)

/-- Model of `SegmentsProcessor._calculate_gain_adjustment`: collect per-interval
loudness (`audio[seg[0]:seg[1]].dBFS`, abstracted to the arbitrary function
`dBFS` of the slice bounds), raise when the list is empty, otherwise return
`target_dBFS - percentile95`. -/
def calculate_gain_adjustment (dBFS : Seg Nat → ℚ) (timeline : List (Seg Nat))
    (target_dBFS : ℚ) : Except String ℚ :=
  if (timeline.map dBFS).isEmpty then
    Except.error "[Warning] No speech segments detected."
  else Except.ok (target_dBFS - percentile95 (timeline.map dBFS))

/-- Observable outcome of `SegmentsProcessor.from_audio`: the detected
timeline, the gain that was computed (if any), and the segments that were
exported to the segments directory. -/
structure FromAudioOutcome where
  timeline : List (Seg Nat)
  gain : Option ℚ
  exported : List (Seg Nat)
deriving DecidableEq

/-- Steps 2–4 of `from_audio` after timeline detection: return early with an
empty segments directory when the timeline is empty, otherwise compute the
gain and export one normalized segment per timeline interval. -/
def from_audio_with_timeline (dBFS : Seg Nat → ℚ) (target_dBFS : ℚ)
    (timeline : List (Seg Nat)) : Except String FromAudioOutcome :=
  if timeline.isEmpty then Except.ok ⟨timeline, none, []⟩
  else
    match calculate_gain_adjustment dBFS timeline target_dBFS with
    | Except.error e => Except.error e
    | Except.ok gain => Except.ok ⟨timeline, some gain, timeline⟩

/-- Model of `SegmentsProcessor.from_audio`: raise when the audio file is missing,
otherwise detect the raw timeline, merge it, and continue with
`from_audio_with_timeline`. -/
def from_audio (audio_exists : Bool) (loud : Nat → Bool) (dBFS : Seg Nat → ℚ)
    (duration chunk_size_ms buffer_size_ms : Nat) (target_dBFS : ℚ) :
    Except String FromAudioOutcome :=
  if audio_exists then
    from_audio_with_timeline dBFS target_dBFS
      (merge_raw_timeline (detect_raw_timeline loud duration chunk_size_ms buffer_size_ms))
  else Except.error "Audio file not found"

/-- An always-quiet track, used to instantiate universally quantified
theorems at a concrete input. -/
def noLoudChunk (_i : Nat) : Bool := false

/-- A track whose first chunk is the only loud one. -/
def firstChunkLoud (i : Nat) : Bool := i == 0

/-- A constant loudness observation. -/
def zeroLoudness (_se : Seg Nat) : ℚ := 0

/-! ### String model for `parse_srt` / `combine_srt_files`

Python string operations are modelled on `List Char` (Lean strings are
`String.mk data`), with structurally recursive definitions so that concrete
inputs evaluate inside the kernel. -/

/-- Python `str.split(sep)` for a non-empty separator, on character lists:
scan left to right, at each position either consume a full separator
occurrence (starting a new part) or move one character into the current part.
`skip` counts separator characters still to consume. -/
def splitSkip (sep : List Char) : Nat → List Char → List Char → List (List Char)
  | _, acc, [] => [acc.reverse]
  | Nat.succ k, acc, _ :: cs => splitSkip sep k acc cs
  | 0, acc, c :: cs =>
    if sep.isPrefixOf (c :: cs) then
      acc.reverse :: splitSkip sep (sep.length - 1) [] cs
    else splitSkip sep 0 (c :: acc) cs

/-- Python `str.split(sep)` on strings (the sources never split on an empty
separator, which Python rejects; it is mapped to the identity split). -/
def strSplitOn (s : String) (sep : String) : List String :=
  match sep.data with
  | [] => [s]
  | c :: cs => (splitSkip (c :: cs) 0 [] s.data).map (fun l => String.mk l)

/-- Python `str.strip()`: drop leading and trailing whitespace. -/
def strTrim (s : String) : String :=
  String.mk (((s.data.dropWhile Char.isWhitespace).reverse.dropWhile Char.isWhitespace).reverse)

/-- Model of `timestamp.replace(",", ".")` from `parse_srt` (a single-character
replace is a character map). -/
def commaToDot (s : String) : String :=
  String.mk (s.data.map (fun c => if c = ',' then '.' else c))

/-- Speaker label derivation of `combine_srt_files`:
`basename.split("-")[1].split(".")[0]` when the file name contains a hyphen,
else `basename.split(".")[0]`. -/
def speaker_of_filename (filename : String) : String :=
  if filename.data.contains '-' then
    ((strSplitOn ((strSplitOn filename "-").getD 1 "") ".").headD "")
  else ((strSplitOn filename ".").headD "")

/-- The block loop of `parse_srt`: skip blocks with fewer than three lines,
split line 1 on `" --> "` (a Python tuple unpack, which raises unless there
are exactly two pieces), normalize both timestamps with
`replace(",", ".")`, and prefix the joined text lines with
`"{speaker}: "`. Entries are `(start_time_for_sorting, end_time_for_sorting,
text_with_speaker)`. -/
def parseBlocks (speaker_name : String) :
    List String → Except String (List (String × String × String))
  | [] => Except.ok []
  | block :: blocks =>
    if (strSplitOn block "\n").length < 3 then parseBlocks speaker_name blocks
    else
      match strSplitOn ((strSplitOn block "\n").getD 1 "") " --> " with
      | [start, stop] =>
        match parseBlocks speaker_name blocks with
        | Except.error e => Except.error e
        | Except.ok rest =>
          Except.ok ((commaToDot start, commaToDot stop,
            speaker_name ++ ": " ++
              String.intercalate " " ((strSplitOn block "\n").drop 2)) :: rest)
      | _ => Except.error "ValueError: timestamp unpack"

/-- Model of `combine.parse_srt`: strip the file content, split it into blocks on
blank lines, and process each block. -/
def parse_srt (content : String) (speaker_name : String) :
    Except String (List (String × String × String)) :=
  parseBlocks speaker_name (strSplitOn (strTrim content) "\n\n")

/-- The collection loop of `combine_srt_files`: parse every `.srt` file with
its filename-derived speaker and extend `all_entries` in order. -/
def collectEntries : List (String × String) → Except String (List (String × String × String))
  | [] => Except.ok []
  | (filename, content) :: rest =>
    match parse_srt content (speaker_of_filename filename) with
    | Except.error e => Except.error e
    | Except.ok es =>
      match collectEntries rest with
      | Except.error e => Except.error e
      | Except.ok esr => Except.ok (es ++ esr)

/-- Python string `<=` on code points (the sort key comparison of
`all_entries.sort(key=lambda x: x[0])`). -/
def strLeB : List Char → List Char → Bool
  | [], _ => true
  | _ :: _, [] => false
  | a :: as, b :: bs => if a < b then true else if b < a then false else strLeB as bs

/-- Order of combined-SRT entries: by the start-timestamp string. -/
def entryLe (a b : String × String × String) : Prop := strLeB a.1.data b.1.data = true

instance : DecidableRel entryLe := fun _ _ =>
  inferInstanceAs (Decidable (_ = true))

/-- The write loop of `combine_srt_files`: sequential blocks
`index\nstart --> end\ntext\n\n`, numbered from 1. -/
def renderEntries (entries : List (String × String × String)) : String :=
  String.join ((List.enumFrom 1 entries).map (fun p =>
    toString p.1 ++ "\n" ++ p.2.1 ++ " --> " ++ p.2.2.1 ++ "\n" ++ p.2.2.2 ++ "\n\n"))

/-- Model of `combine.combine_srt_files`: filter to `.srt` files, collect and sort all
entries by start-timestamp string, render the combined file. -/
def combine_srt_files (files : List (String × String)) : Except String String :=
  match collectEntries (files.filter (fun fc => ".srt".data.isSuffixOf fc.1.data)) with
  | Except.error e => Except.error e
  | Except.ok all_entries =>
    Except.ok (renderEntries (List.insertionSort entryLe all_entries))

/-- Shape check for an SRT timestamp `HH:MM:SS<sep>mmm` with the given
millisecond separator. -/
def tsChars (sep : Char) : List Char → Bool
  | [h1, h2, c1, m1, m2, c2, s1, s2, p, x1, x2, x3] =>
    h1.isDigit && h2.isDigit && (c1 == ':') && m1.isDigit && m2.isDigit && (c2 == ':') &&
      s1.isDigit && s2.isDigit && (p == sep) && x1.isDigit && x2.isDigit && x3.isDigit
  | _ => false

/-- Lift of `tsChars` to strings. -/
def tsFmt (sep : Char) (s : String) : Bool := tsChars sep s.data

/-! ### Invariants of the coalescing merge -/

theorem mergeGo_eq_of_gap [LinearOrder α] :
    ∀ (l : List (Seg α)) (cur : Seg α),
      List.Chain' (fun a b : Seg α => a.2 < b.1) (cur :: l) → mergeGo cur l = cur :: l := by
  intro l
  induction l with
  | nil => intro cur _; simp [mergeGo]
  | cons s rest ih =>
    intro cur hc
    simp only [mergeGo]
    rw [if_pos (List.chain'_cons.mp hc).1, ih s (List.chain'_cons.mp hc).2]

theorem mergePass_eq_of_gap [LinearOrder α] (l : List (Seg α))
    (h : List.Chain' (fun a b : Seg α => a.2 < b.1) l) : mergePass l = l := by
  cases l with
  | nil => rfl
  | cons s rest => exact mergeGo_eq_of_gap rest s h

/-- Main invariant of the merge loop on a sorted, duplicate-free input: the
output is gap-separated (`end < next start`), still lexicographically sorted
and duplicate-free, and every output segment starts at or after `cur` (with an
end no smaller than `cur`'s when the start is equal). -/
theorem mergeGo_invariant [LinearOrder α] :
    ∀ (l : List (Seg α)) (cur : Seg α),
      List.Chain' lexLe (cur :: l) → (cur :: l).Nodup →
      List.Chain' (fun a b : Seg α => a.2 < b.1) (mergeGo cur l) ∧
      List.Chain' lexLe (mergeGo cur l) ∧
      (mergeGo cur l).Nodup ∧
      ∀ x ∈ mergeGo cur l, cur.1 < x.1 ∨ (x.1 = cur.1 ∧ cur.2 ≤ x.2) := by
  intro l
  induction l with
  | nil =>
    intro cur _ _
    refine ⟨by simp [mergeGo], by simp [mergeGo], by simp [mergeGo], ?_⟩
    intro x hx
    simp only [mergeGo, List.mem_singleton] at hx
    exact Or.inr ⟨by rw [hx], by rw [hx]⟩
  | cons s rest ih =>
    intro cur hchain hnodup
    have hcs : lexLe cur s := (List.chain'_cons.mp hchain).1
    have hchain2 : List.Chain' lexLe (s :: rest) := (List.chain'_cons.mp hchain).2
    have hnodup2 : (s :: rest).Nodup := hnodup.of_cons
    have hcur_notin : cur ∉ s :: rest := (List.nodup_cons.mp hnodup).1
    have hcur_ne_s : cur ≠ s := fun h => hcur_notin (by rw [h]; exact List.mem_cons_self s rest)
    have hcs1 : cur.1 ≤ s.1 := by
      rcases hcs with h' | ⟨h1', _⟩
      exacts [le_of_lt h', le_of_eq h1']
    by_cases hcase : cur.2 < s.1
    · have heq : mergeGo cur (s :: rest) = cur :: mergeGo s rest := by
        simp only [mergeGo]; rw [if_pos hcase]
      obtain ⟨g1, g2, g3, g4⟩ := ih s hchain2 hnodup2
      have hge : ∀ x ∈ mergeGo s rest, s.1 ≤ x.1 := by
        intro x hx
        rcases g4 x hx with h | ⟨h, _⟩
        exacts [le_of_lt h, le_of_eq h.symm]
      rw [heq]
      refine ⟨?_, ?_, ?_, ?_⟩
      · rw [List.chain'_cons']
        refine ⟨?_, g1⟩
        intro b hb
        exact lt_of_lt_of_le hcase (hge b (List.mem_of_mem_head? hb))
      · rw [List.chain'_cons']
        refine ⟨?_, g2⟩
        intro b hb
        rcases g4 b (List.mem_of_mem_head? hb) with h | ⟨h1, h2⟩
        · exact Or.inl (lt_of_le_of_lt hcs1 h)
        · rcases hcs with h' | ⟨h1', h2'⟩
          · exact Or.inl (by rw [h1]; exact h')
          · exact Or.inr ⟨h1.trans h1'.symm |>.symm, le_trans h2' h2⟩
      · rw [List.nodup_cons]
        refine ⟨?_, g3⟩
        intro hmem
        rcases g4 cur hmem with h | ⟨h1, h2⟩
        · rcases hcs with h' | ⟨h1', _⟩
          · exact absurd (h.trans h') (lt_irrefl _)
          · rw [h1'] at h; exact absurd h (lt_irrefl _)
        · rcases hcs with h' | ⟨h1', h2'⟩
          · rw [h1] at h'; exact absurd h' (lt_irrefl _)
          · exact hcur_ne_s (Prod.ext h1' (le_antisymm h2' h2))
      · intro x hx
        rcases List.mem_cons.mp hx with rfl | hx'
        · exact Or.inr ⟨rfl, le_refl _⟩
        · rcases g4 x hx' with h | ⟨h1, h2⟩
          · exact Or.inl (lt_of_le_of_lt hcs1 h)
          · rcases hcs with h' | ⟨h1', h2'⟩
            · exact Or.inl (by rw [h1]; exact h')
            · exact Or.inr ⟨h1.trans h1'.symm |>.symm |>.symm, le_trans h2' h2⟩
    · have heq : mergeGo cur (s :: rest) = mergeGo (cur.1, max cur.2 s.2) rest := by
        simp only [mergeGo]; rw [if_neg hcase]
      have hrest_ge : ∀ r ∈ rest, lexLe s r := by
        have hpw := List.chain'_iff_pairwise.mp hchain2
        exact fun r hr => (List.pairwise_cons.mp hpw).1 r hr
      have hchain' : List.Chain' lexLe ((cur.1, max cur.2 s.2) :: rest) := by
        rw [List.chain'_cons']
        refine ⟨?_, hchain2.tail⟩
        intro r hr
        have hsr : lexLe s r := hrest_ge r (List.mem_of_mem_head? hr)
        rcases hcs with h' | ⟨h1', h2'⟩
        · have hs1 : s.1 ≤ r.1 := by
            rcases hsr with h | ⟨h, _⟩
            exacts [le_of_lt h, le_of_eq h]
          exact Or.inl (lt_of_lt_of_le h' hs1)
        · have hmax : max cur.2 s.2 = s.2 := max_eq_right h2'
          rcases hsr with h | ⟨h, h2⟩
          · exact Or.inl (by show cur.1 < r.1; rw [h1']; exact h)
          · exact Or.inr ⟨h1'.trans h, by show max cur.2 s.2 ≤ r.2; rw [hmax]; exact h2⟩
      have hnodup' : ((cur.1, max cur.2 s.2) :: rest).Nodup := by
        rcases hcs with h' | ⟨h1', h2'⟩
        · rw [List.nodup_cons]
          refine ⟨?_, hnodup2.of_cons⟩
          intro hmem
          have hsr : lexLe s (cur.1, max cur.2 s.2) := hrest_ge _ hmem
          have hs1 : s.1 ≤ cur.1 := by
            rcases hsr with h | ⟨h, _⟩
            exacts [le_of_lt h, le_of_eq h]
          exact absurd (lt_of_lt_of_le h' hs1) (lt_irrefl _)
        · have heqs : (cur.1, max cur.2 s.2) = s :=
            Prod.ext h1' (by show max cur.2 s.2 = s.2; exact max_eq_right h2')
          rw [heqs]
          exact hnodup2
      obtain ⟨g1, g2, g3, g4⟩ := ih (cur.1, max cur.2 s.2) hchain' hnodup'
      rw [heq]
      refine ⟨g1, g2, g3, ?_⟩
      intro x hx
      rcases g4 x hx with h | ⟨h1, h2⟩
      · exact Or.inl h
      · exact Or.inr ⟨h1, le_trans (le_max_left _ _) h2⟩

theorem mergePass_invariant [LinearOrder α] (l : List (Seg α))
    (hc : List.Chain' lexLe l) (hn : l.Nodup) :
    List.Chain' (fun a b : Seg α => a.2 < b.1) (mergePass l) ∧
    List.Chain' lexLe (mergePass l) ∧ (mergePass l).Nodup := by
  cases l with
  | nil => simp [mergePass]
  | cons s rest =>
    obtain ⟨g1, g2, g3, _⟩ := mergeGo_invariant rest s hc hn
    exact ⟨g1, g2, g3⟩

/-- Weaker invariant that only needs the input ordered (non-strictly) by
start, matching `_merge_raw_timeline`'s contract on the raw detector
output: the merged result is gap-separated and still ordered by start. -/
theorem mergeGo_weak [LinearOrder α] :
    ∀ (l : List (Seg α)) (cur : Seg α),
      List.Chain' (fun a b : Seg α => a.1 ≤ b.1) (cur :: l) →
      List.Chain' (fun a b : Seg α => a.2 < b.1) (mergeGo cur l) ∧
      List.Chain' (fun a b : Seg α => a.1 ≤ b.1) (mergeGo cur l) ∧
      ∀ x ∈ mergeGo cur l, cur.1 ≤ x.1 := by
  intro l
  induction l with
  | nil =>
    intro cur _
    refine ⟨by simp [mergeGo], by simp [mergeGo], ?_⟩
    intro x hx
    simp only [mergeGo, List.mem_singleton] at hx
    rw [hx]
  | cons s rest ih =>
    intro cur hchain
    have hcs : cur.1 ≤ s.1 := (List.chain'_cons.mp hchain).1
    have hchain2 := (List.chain'_cons.mp hchain).2
    by_cases hcase : cur.2 < s.1
    · have heq : mergeGo cur (s :: rest) = cur :: mergeGo s rest := by
        simp only [mergeGo]; rw [if_pos hcase]
      obtain ⟨g1, g2, g3⟩ := ih s hchain2
      rw [heq]
      refine ⟨?_, ?_, ?_⟩
      · rw [List.chain'_cons']
        refine ⟨?_, g1⟩
        intro b hb
        exact lt_of_lt_of_le hcase (g3 b (List.mem_of_mem_head? hb))
      · rw [List.chain'_cons']
        refine ⟨?_, g2⟩
        intro b hb
        exact le_trans hcs (g3 b (List.mem_of_mem_head? hb))
      · intro x hx
        rcases List.mem_cons.mp hx with rfl | hx'
        · exact le_refl _
        · exact le_trans hcs (g3 x hx')
    · have heq : mergeGo cur (s :: rest) = mergeGo (cur.1, max cur.2 s.2) rest := by
        simp only [mergeGo]; rw [if_neg hcase]
      have hchain' : List.Chain' (fun a b : Seg α => a.1 ≤ b.1)
          ((cur.1, max cur.2 s.2) :: rest) := by
        rw [List.chain'_cons']
        refine ⟨?_, hchain2.tail⟩
        intro r hr
        exact le_trans hcs ((List.chain'_cons'.mp hchain2).1 r hr)
      obtain ⟨g1, g2, g3⟩ := ih (cur.1, max cur.2 s.2) hchain'
      rw [heq]
      exact ⟨g1, g2, fun x hx => g3 x hx⟩

/-- The merge loop preserves well-formedness (`start < end`) of segments:
appended segments come from the input, and folding only grows an end. -/
theorem mergeGo_wf [LinearOrder α] :
    ∀ (l : List (Seg α)) (cur : Seg α), cur.1 < cur.2 → (∀ p ∈ l, p.1 < p.2) →
      ∀ x ∈ mergeGo cur l, x.1 < x.2 := by
  intro l
  induction l with
  | nil =>
    intro cur hcur _ x hx
    simp only [mergeGo, List.mem_singleton] at hx
    rw [hx]; exact hcur
  | cons s rest ih =>
    intro cur hcur hl x hx
    by_cases hcase : cur.2 < s.1
    · have heq : mergeGo cur (s :: rest) = cur :: mergeGo s rest := by
        simp only [mergeGo]; rw [if_pos hcase]
      rw [heq] at hx
      rcases List.mem_cons.mp hx with rfl | hx'
      · exact hcur
      · exact ih s (hl s (List.mem_cons_self _ _))
          (fun p hp => hl p (List.mem_cons_of_mem _ hp)) x hx'
    · have heq : mergeGo cur (s :: rest) = mergeGo (cur.1, max cur.2 s.2) rest := by
        simp only [mergeGo]; rw [if_neg hcase]
      rw [heq] at hx
      exact ih (cur.1, max cur.2 s.2) (lt_of_lt_of_le hcur (le_max_left _ _))
        (fun p hp => hl p (List.mem_cons_of_mem _ hp)) x hx

theorem mergePass_wf [LinearOrder α] (l : List (Seg α)) (h : ∀ p ∈ l, p.1 < p.2) :
    ∀ x ∈ mergePass l, x.1 < x.2 := by
  cases l with
  | nil => intro x hx; simp [mergePass] at hx
  | cons s rest =>
    exact mergeGo_wf rest s (h s (List.mem_cons_self _ _))
      (fun p hp => h p (List.mem_cons_of_mem _ hp))

theorem mergePass_weak [LinearOrder α] (l : List (Seg α))
    (h : List.Chain' (fun a b : Seg α => a.1 ≤ b.1) l) :
    List.Chain' (fun a b : Seg α => a.2 < b.1) (mergePass l) ∧
    List.Chain' (fun a b : Seg α => a.1 ≤ b.1) (mergePass l) := by
  cases l with
  | nil => simp [mergePass]
  | cons s rest =>
    obtain ⟨g1, g2, _⟩ := mergeGo_weak rest s h
    exact ⟨g1, g2⟩

/-- A gap-separated list of well-formed segments has strictly increasing
starts. -/
theorem gap_wf_chain_startLt [LinearOrder α] :
    ∀ (M : List (Seg α)), List.Chain' (fun a b : Seg α => a.2 < b.1) M →
      (∀ x ∈ M, x.1 < x.2) → List.Chain' (fun a b : Seg α => a.1 < b.1) M := by
  intro M
  induction M with
  | nil => intro _ _; simp
  | cons a l ih =>
    intro hc hwf
    rw [List.chain'_cons'] at hc ⊢
    refine ⟨?_, ih hc.2 (fun x hx => hwf x (List.mem_cons_of_mem _ hx))⟩
    intro b hb
    exact lt_trans (hwf a (List.mem_cons_self _ _)) (hc.1 b hb)

/-! ### Properties of `adjust_pos_to_timeline` and `shift_audio` -/

/-- The `running_total` accumulator only shifts the result. -/
theorem adjustAux_acc : ∀ (tl : List (Seg Int)) (pos acc : Int),
    adjustAux tl pos acc = acc + adjustAux tl pos 0 := by
  intro tl
  induction tl with
  | nil => intro pos acc; simp [adjustAux]
  | cons se rest ih =>
    intro pos acc
    obtain ⟨s, e⟩ := se
    simp only [adjustAux]
    by_cases h1 : pos ≤ s
    · rw [if_pos h1, if_pos h1]; ring
    · rw [if_neg h1, if_neg h1]
      by_cases h2 : pos ≤ e
      · rw [if_pos h2, if_pos h2]; ring
      · rw [if_neg h2, if_neg h2, ih pos (acc + (e - s)), ih pos (0 + (e - s))]; ring

theorem adjust_nonneg : ∀ (tl : List (Seg Int)), (∀ p ∈ tl, p.1 ≤ p.2) →
    ∀ pos : Int, 0 ≤ adjust_pos_to_timeline tl pos := by
  intro tl
  induction tl with
  | nil => intro _ pos; simp [adjust_pos_to_timeline, adjustAux]
  | cons se rest ih =>
    intro h pos
    obtain ⟨s, e⟩ := se
    have hse : s ≤ e := h (s, e) (List.mem_cons_self _ _)
    have hrest : ∀ p ∈ rest, p.1 ≤ p.2 := fun p hp => h p (List.mem_cons_of_mem _ hp)
    show (0 : Int) ≤ adjustAux ((s, e) :: rest) pos 0
    simp only [adjustAux]
    by_cases h1 : pos ≤ s
    · rw [if_pos h1]
    · rw [if_neg h1]
      by_cases h2 : pos ≤ e
      · rw [if_pos h2]; omega
      · rw [if_neg h2, adjustAux_acc]
        have h0 : (0 : Int) ≤ adjustAux rest pos 0 := ih hrest pos
        linarith

theorem adjust_mono_aux : ∀ (tl : List (Seg Int)), (∀ p ∈ tl, p.1 ≤ p.2) →
    ∀ p1 p2 : Int, p1 ≤ p2 →
      adjust_pos_to_timeline tl p1 ≤ adjust_pos_to_timeline tl p2 := by
  intro tl
  induction tl with
  | nil => intro _ p1 p2 _; simp [adjust_pos_to_timeline, adjustAux]
  | cons se rest ih =>
    intro h p1 p2 h12
    obtain ⟨s, e⟩ := se
    have hse : s ≤ e := h (s, e) (List.mem_cons_self _ _)
    have hrest : ∀ p ∈ rest, p.1 ≤ p.2 := fun p hp => h p (List.mem_cons_of_mem _ hp)
    show adjustAux ((s, e) :: rest) p1 0 ≤ adjustAux ((s, e) :: rest) p2 0
    simp only [adjustAux]
    by_cases ha : p1 ≤ s
    · rw [if_pos ha]
      by_cases hb : p2 ≤ s
      · rw [if_pos hb]
      · rw [if_neg hb]
        by_cases hc : p2 ≤ e
        · rw [if_pos hc]; omega
        · rw [if_neg hc, adjustAux_acc]
          have h0 : (0 : Int) ≤ adjustAux rest p2 0 := adjust_nonneg rest hrest p2
          linarith
    · rw [if_neg ha]
      have hb : ¬ p2 ≤ s := fun hb => ha (le_trans h12 hb)
      rw [if_neg hb]
      by_cases hc : p1 ≤ e
      · rw [if_pos hc]
        by_cases hd : p2 ≤ e
        · rw [if_pos hd]; linarith
        · rw [if_neg hd, adjustAux_acc]
          have h0 : (0 : Int) ≤ adjustAux rest p2 0 := adjust_nonneg rest hrest p2
          linarith
      · rw [if_neg hc]
        have hd : ¬ p2 ≤ e := fun hd => hc (le_trans h12 hd)
        rw [if_neg hd, adjustAux_acc rest p1 (0 + (e - s)), adjustAux_acc rest p2 (0 + (e - s))]
        have hmono : adjustAux rest p1 0 ≤ adjustAux rest p2 0 := ih hrest p1 p2 h12
        linarith

theorem fitLength_length (l : List Int) (ref_length : Nat) :
    (fitLength l ref_length).length = ref_length := by
  unfold fitLength
  by_cases h1 : ref_length < l.length
  · rw [if_pos h1, List.length_take]; omega
  · rw [if_neg h1]
    by_cases h2 : l.length < ref_length
    · rw [if_pos h2, List.length_append, List.length_replicate]; omega
    · rw [if_neg h2]; omega

/-! ### Bounds of the raw speech detector -/

theorem chunkStarts_lt (duration chunk_size_ms : Nat) (hc : 0 < chunk_size_ms) :
    ∀ i ∈ chunkStarts duration chunk_size_ms, i < duration := by
  intro i hi
  simp only [chunkStarts, List.mem_map, List.mem_range] at hi
  obtain ⟨k, hk, rfl⟩ := hi
  have h2 : (k + 1) * chunk_size_ms ≤ duration + chunk_size_ms - 1 :=
    (Nat.le_div_iff_mul_le hc).mp hk
  rw [Nat.succ_mul] at h2
  omega

theorem chunkStarts_sorted (duration chunk_size_ms : Nat) :
    List.Pairwise (· ≤ ·) (chunkStarts duration chunk_size_ms) := by
  exact List.Pairwise.map _
    (fun a b (h : a < b) => Nat.mul_le_mul_right _ (le_of_lt h))
    (List.pairwise_lt_range _)

/-- Invariant of the detection fold: every closed interval, and any open one,
is well-formed and clamped to the track duration; the open interval starts no
later than any still-unprocessed chunk. -/
theorem detect_fold_invariant (loud : Nat → Bool) (duration chunk_size_ms buffer_size_ms : Nat)
    (hc : 0 < chunk_size_ms) :
    ∀ (idxs : List Nat) (st : List (Seg Nat) × Option (Seg Nat)),
      (∀ i ∈ idxs, i < duration) → List.Pairwise (· ≤ ·) idxs →
      (∀ x ∈ st.1, x.1 < x.2 ∧ x.2 ≤ duration) →
      (∀ cur, st.2 = some cur → (cur.1 < cur.2 ∧ cur.2 ≤ duration) ∧ ∀ j ∈ idxs, cur.1 ≤ j) →
      (∀ x ∈ (idxs.foldl (detectStep loud duration chunk_size_ms buffer_size_ms) st).1,
        x.1 < x.2 ∧ x.2 ≤ duration) ∧
      (∀ cur, (idxs.foldl (detectStep loud duration chunk_size_ms buffer_size_ms) st).2 =
          some cur → cur.1 < cur.2 ∧ cur.2 ≤ duration) := by
  intro idxs
  induction idxs with
  | nil =>
    intro st _ _ h1 h2
    exact ⟨h1, fun cur hcur => (h2 cur hcur).1⟩
  | cons i rest ih =>
    intro st hlt hpw h1 h2
    rw [List.foldl_cons]
    have hi : i < duration := hlt i (List.mem_cons_self _ _)
    have hrest_lt : ∀ j ∈ rest, j < duration := fun j hj => hlt j (List.mem_cons_of_mem _ hj)
    have hige : ∀ j ∈ rest, i ≤ j := (List.pairwise_cons.mp hpw).1
    refine ih (detectStep loud duration chunk_size_ms buffer_size_ms st i) hrest_lt
      (List.pairwise_cons.mp hpw).2 ?_ ?_
    · intro x hx
      unfold detectStep at hx
      by_cases hl : loud i
      · rw [if_pos hl] at hx
        cases hst : st.2 with
        | none => rw [hst] at hx; exact h1 x hx
        | some cur => rw [hst] at hx; exact h1 x hx
      · rw [if_neg hl] at hx
        cases hst : st.2 with
        | none => rw [hst] at hx; exact h1 x hx
        | some cur =>
          rw [hst] at hx
          rcases List.mem_append.mp hx with hx' | hx'
          · exact h1 x hx'
          · have hxe : x = cur := by simpa using hx'
            rw [hxe]
            exact (h2 cur hst).1
    · intro cur hcur
      unfold detectStep at hcur
      by_cases hl : loud i
      · rw [if_pos hl] at hcur
        cases hst : st.2 with
        | none =>
          rw [hst] at hcur
          simp only [Option.some.injEq] at hcur
          refine ⟨⟨?_, ?_⟩, ?_⟩
          · rw [← hcur]; simp only []; omega
          · rw [← hcur]; simp only []; omega
          · intro j hj
            rw [← hcur]
            exact le_trans (Nat.sub_le _ _) (hige j hj)
        | some old =>
          rw [hst] at hcur
          simp only [Option.some.injEq] at hcur
          have hold := h2 old hst
          have holdi : old.1 ≤ i := hold.2 i (List.mem_cons_self _ _)
          refine ⟨⟨?_, ?_⟩, ?_⟩
          · rw [← hcur]; simp only []; omega
          · rw [← hcur]; simp only []; omega
          · intro j hj
            rw [← hcur]
            exact hold.2 j (List.mem_cons_of_mem _ hj)
      · rw [if_neg hl] at hcur
        cases hst : st.2 with
        | none =>
          rw [hst] at hcur
          have := h2 cur hcur
          exact ⟨this.1, fun j hj => this.2 j (List.mem_cons_of_mem _ hj)⟩
        | some old =>
          rw [hst] at hcur
          simp at hcur

/-! ### Format of combined SRT entries -/

theorem tsChars_map_commaToDot :
    ∀ l : List Char, tsChars ',' l = true →
      tsChars '.' (l.map (fun c => if c = ',' then '.' else c)) = true := by
  have hdig : ∀ c : Char, c.isDigit = true → (if c = ',' then '.' else c).isDigit = true := by
    intro c hc
    by_cases h : c = ','
    · rw [h] at hc; exact absurd hc (by decide)
    · rw [if_neg h]; exact hc
  intro l h
  unfold tsChars at h
  split at h
  case h_2 => exact absurd h (by simp)
  case h_1 h1 h2 c1 m1 m2 c2 s1 s2 p x1 x2 x3 =>
    simp only [Bool.and_eq_true, beq_iff_eq] at h
    obtain ⟨⟨⟨⟨⟨⟨⟨⟨⟨⟨⟨hh1, hh2⟩, hc1⟩, hm1⟩, hm2⟩, hc2⟩, hs1⟩, hs2⟩, hp⟩, hx1⟩, hx2⟩, hx3⟩ := h
    simp only [List.map]
    unfold tsChars
    simp only [Bool.and_eq_true, beq_iff_eq]
    rw [hc1, hc2, hp]
    refine ⟨⟨⟨⟨⟨⟨⟨⟨⟨⟨⟨hdig _ hh1, hdig _ hh2⟩, ?_⟩, hdig _ hm1⟩, hdig _ hm2⟩, ?_⟩,
      hdig _ hs1⟩, hdig _ hs2⟩, ?_⟩, hdig _ hx1⟩, hdig _ hx2⟩, hdig _ hx3⟩
    · rw [if_neg (by decide)]
    · rw [if_neg (by decide)]
    · rw [if_pos rfl]

theorem tsFmt_commaToDot (s : String) (h : tsFmt ',' s = true) :
    tsFmt '.' (commaToDot s) = true :=
  tsChars_map_commaToDot s.data h

/-- Every successfully parsed entry comes from a block with at least three
lines whose timestamp line split exactly in two, and carries the
comma-to-period-normalized timestamps and the speaker-prefixed text. -/
theorem parseBlocks_entry_shape (speaker_name : String) :
    ∀ (blocks : List String) (entries : List (String × String × String)),
      parseBlocks speaker_name blocks = Except.ok entries →
      ∀ e ∈ entries, ∃ block ∈ blocks, ∃ t1 t2,
        3 ≤ (strSplitOn block "\n").length ∧
        strSplitOn ((strSplitOn block "\n").getD 1 "") " --> " = [t1, t2] ∧
        e = (commaToDot t1, commaToDot t2,
          speaker_name ++ ": " ++
            String.intercalate " " ((strSplitOn block "\n").drop 2)) := by
  intro blocks
  induction blocks with
  | nil =>
    intro entries h e he
    simp only [parseBlocks, Except.ok.injEq] at h
    rw [← h] at he
    exact absurd he (List.not_mem_nil e)
  | cons b bs ih =>
    intro entries h e he
    rw [parseBlocks] at h
    by_cases hlen : (strSplitOn b "\n").length < 3
    · rw [if_pos hlen] at h
      obtain ⟨block, hb, rest⟩ := ih entries h e he
      exact ⟨block, List.mem_cons_of_mem _ hb, rest⟩
    · rw [if_neg hlen] at h
      cases hts : strSplitOn ((strSplitOn b "\n").getD 1 "") " --> " with
      | nil => rw [hts] at h; simp at h
      | cons t ts =>
        cases ts with
        | nil => rw [hts] at h; simp at h
        | cons t2 ts2 =>
          cases ts2 with
          | cons t3 ts3 => rw [hts] at h; simp at h
          | nil =>
            rw [hts] at h
            cases hrec : parseBlocks speaker_name bs with
            | error err => rw [hrec] at h; simp at h
            | ok rest =>
              rw [hrec] at h
              simp only [Except.ok.injEq] at h
              rw [← h] at he
              rcases List.mem_cons.mp he with rfl | he'
              · exact ⟨b, List.mem_cons_self _ _, t, t2, le_of_not_lt hlen, hts, rfl⟩
              · obtain ⟨block, hb, rest'⟩ := ih rest hrec e he'
                exact ⟨block, List.mem_cons_of_mem _ hb, rest'⟩

/-- Every collected entry comes from some input file's successful parse. -/
theorem collectEntries_mem :
    ∀ (files : List (String × String)) (all_entries : List (String × String × String)),
      collectEntries files = Except.ok all_entries →
      ∀ e ∈ all_entries, ∃ fc ∈ files, ∃ es,
        parse_srt fc.2 (speaker_of_filename fc.1) = Except.ok es ∧ e ∈ es := by
  intro files
  induction files with
  | nil =>
    intro all_entries h e he
    simp only [collectEntries, Except.ok.injEq] at h
    rw [← h] at he
    exact absurd he (List.not_mem_nil e)
  | cons fc rest ih =>
    intro all_entries h e he
    obtain ⟨filename, content⟩ := fc
    rw [collectEntries] at h
    cases hp : parse_srt content (speaker_of_filename filename) with
    | error err => rw [hp] at h; simp at h
    | ok es =>
      rw [hp] at h
      cases hr : collectEntries rest with
      | error err => rw [hr] at h; simp at h
      | ok esr =>
        rw [hr] at h
        simp only [Except.ok.injEq] at h
        rw [← h] at he
        rcases List.mem_append.mp he with he' | he'
        · exact ⟨(filename, content), List.mem_cons_self _ _, es, hp, he'⟩
        · obtain ⟨fc', hfc', es', hes', he''⟩ := ih esr hr e he'
          exact ⟨fc', List.mem_cons_of_mem _ hfc', es', hes', he''⟩

/-- C2: the coalescing merge maps `[(0,100),(200,300)]` to itself, coalesces
the touching chain `[(0,100),(100,200),(200,300)]` to `[(0,300)]`, and maps
the unsorted `[(200,400),(0,300)]` to `[(0,400)]`. -/
theorem merge_pass_concrete :
    merge_timelines [[((0 : Int), 100), (200, 300)]] = [(0, 100), (200, 300)] ∧
    merge_timelines [[((0 : Int), 100), (100, 200), (200, 300)]] = [(0, 300)] ∧
    merge_timelines [[((200 : Int), 400), (0, 300)]] = [(0, 400)] := by
  refine ⟨?_, ?_, ?_⟩ <;> decide

/-- C3: `adjust_pos_to_timeline` on `[(0,200),(300,500)]` maps
0↦0, 100↦100, 200↦200, 250↦200, 300↦200, 350↦250, 500↦400, and on
`[(100,300),(400,500)]` maps 0↦0, 99↦0, 300↦200, 450↦250, 501↦300. -/
theorem adjust_pos_concrete :
    adjust_pos_to_timeline [((0 : Int), 200), (300, 500)] 0 = 0 ∧
    adjust_pos_to_timeline [((0 : Int), 200), (300, 500)] 100 = 100 ∧
    adjust_pos_to_timeline [((0 : Int), 200), (300, 500)] 200 = 200 ∧
    adjust_pos_to_timeline [((0 : Int), 200), (300, 500)] 250 = 200 ∧
    adjust_pos_to_timeline [((0 : Int), 200), (300, 500)] 300 = 200 ∧
    adjust_pos_to_timeline [((0 : Int), 200), (300, 500)] 350 = 250 ∧
    adjust_pos_to_timeline [((0 : Int), 200), (300, 500)] 500 = 400 ∧
    adjust_pos_to_timeline [((100 : Int), 300), (400, 500)] 0 = 0 ∧
    adjust_pos_to_timeline [((100 : Int), 300), (400, 500)] 99 = 0 ∧
    adjust_pos_to_timeline [((100 : Int), 300), (400, 500)] 300 = 200 ∧
    adjust_pos_to_timeline [((100 : Int), 300), (400, 500)] 450 = 250 ∧
    adjust_pos_to_timeline [((100 : Int), 300), (400, 500)] 501 = 300 := by
  decide

/-- C4: `merge_timelines` is idempotent: for every list of timelines `X`,
`merge_timelines [merge_timelines X] = merge_timelines X`. -/
theorem merge_timelines_idempotent (X : List (List (Seg Int))) :
    merge_timelines [merge_timelines X] = merge_timelines X := by
  obtain ⟨hgap, hlex, hnd⟩ :=
    mergePass_invariant (List.insertionSort lexLe (List.dedup X.flatten))
      (List.Pairwise.chain' (List.sorted_insertionSort lexLe _))
      ((List.perm_insertionSort lexLe _).nodup_iff.mpr (List.nodup_dedup _))
  have hM : merge_timelines X =
      mergePass (List.insertionSort lexLe (List.dedup X.flatten)) := rfl
  show mergePass
      (List.insertionSort lexLe (List.dedup ([merge_timelines X] :
        List (List (Seg Int))).flatten)) = merge_timelines X
  have h1 : ([merge_timelines X] : List (List (Seg Int))).flatten = merge_timelines X := by
    simp
  rw [h1, hM, hnd.dedup,
    List.Sorted.insertionSort_eq (List.chain'_iff_pairwise.mp hlex),
    mergePass_eq_of_gap _ hgap]

/-- C5: `merge_timelines` is invariant under permutation of its input
tracks. -/
theorem merge_timelines_perm_invariant (X Y : List (List (Seg Int))) (h : X.Perm Y) :
    merge_timelines X = merge_timelines Y := by
  have hs : List.insertionSort lexLe (List.dedup X.flatten) =
      List.insertionSort lexLe (List.dedup Y.flatten) :=
    List.eq_of_perm_of_sorted
      (((List.perm_insertionSort lexLe _).trans h.flatten.dedup).trans
        (List.perm_insertionSort lexLe _).symm)
      (List.sorted_insertionSort lexLe _) (List.sorted_insertionSort lexLe _)
  show mergePass (List.insertionSort lexLe (List.dedup X.flatten)) =
    mergePass (List.insertionSort lexLe (List.dedup Y.flatten))
  rw [hs]

/-- Witness for C5 at a concrete permutation. -/
theorem merge_timelines_perm_invariant_witness :
    ([[((0 : Int), 1)], [(2, 3)]] : List (List (Seg Int))).Perm [[(2, 3)], [(0, 1)]] ∧
    merge_timelines [[((0 : Int), 1)], [(2, 3)]] = merge_timelines [[(2, 3)], [(0, 1)]] :=
  ⟨by decide, merge_timelines_perm_invariant _ _ (by decide)⟩

/-- C6: `adjust_pos_to_timeline` is monotonically non-decreasing in its
position argument, for every timeline made of well-formed intervals
(`start < end`, the §3 Interval data model). -/
theorem adjust_pos_to_timeline_monotone (timeline : List (Seg Int))
    (hwf : ∀ p ∈ timeline, p.1 < p.2) (p1 p2 : Int) (h12 : p1 ≤ p2) :
    adjust_pos_to_timeline timeline p1 ≤ adjust_pos_to_timeline timeline p2 :=
  adjust_mono_aux timeline (fun p hp => le_of_lt (hwf p hp)) p1 p2 h12

/-- Witness for C6 at the spec's own example timeline. -/
theorem adjust_pos_to_timeline_monotone_witness :
    adjust_pos_to_timeline [((0 : Int), 200), (300, 500)] 250 ≤
      adjust_pos_to_timeline [((0 : Int), 200), (300, 500)] 350 :=
  adjust_pos_to_timeline_monotone _ (by decide) 250 350 (by decide)

/-- C7: `shift_audio` always returns exactly `ref_length` samples, and when
the offset is negative with magnitude at least the candidate's length the
result is all-zero silence of the reference length. -/
theorem shift_audio_length_and_silence (spk_audio : List Int) (offset : Int)
    (ref_length : Nat) :
    (shift_audio spk_audio offset ref_length).length = ref_length ∧
    (offset < 0 → spk_audio.length ≤ offset.natAbs →
      shift_audio spk_audio offset ref_length = List.replicate ref_length 0) := by
  constructor
  · exact fitLength_length _ _
  · intro hneg hlen
    have hphase : shiftPhase spk_audio offset ref_length = List.replicate ref_length 0 := by
      unfold shiftPhase
      rw [if_neg (by omega), if_pos hneg, if_pos hlen]
    show fitLength (shiftPhase spk_audio offset ref_length) ref_length = _
    rw [hphase]
    unfold fitLength
    rw [List.length_replicate, if_neg (lt_irrefl _), if_neg (lt_irrefl _)]

/-- Witness for C7 at a concrete over-shifted candidate. -/
theorem shift_audio_length_and_silence_witness :
    ((-5 : Int) < 0 ∧ ([1, 2, 3] : List Int).length ≤ (-5 : Int).natAbs) ∧
    (shift_audio [1, 2, 3] (-5) 4).length = 4 ∧
    shift_audio [1, 2, 3] (-5) 4 = List.replicate 4 0 :=
  ⟨⟨by decide, by decide⟩, (shift_audio_length_and_silence [1, 2, 3] (-5) 4).1,
    (shift_audio_length_and_silence [1, 2, 3] (-5) 4).2 (by decide) (by decide)⟩

/-- C9: both coalescing merges establish the Timeline invariant. For
`merge_timelines`, any input of well-formed intervals yields a timeline whose
consecutive intervals satisfy `end < next start` (no overlap or touch) with
strictly ascending starts; for `_merge_raw_timeline`, the same holds for any
raw list of well-formed intervals ordered (non-strictly) by start. -/
theorem timeline_invariant_after_merge :
    (∀ tls : List (List (Seg Int)), (∀ p ∈ tls.flatten, p.1 < p.2) →
      List.Chain' (fun a b : Seg Int => a.2 < b.1) (merge_timelines tls) ∧
      List.Chain' (fun a b : Seg Int => a.1 < b.1) (merge_timelines tls)) ∧
    (∀ raw : List (Seg Nat), List.Chain' (fun a b : Seg Nat => a.1 ≤ b.1) raw →
      (∀ p ∈ raw, p.1 < p.2) →
      List.Chain' (fun a b : Seg Nat => a.2 < b.1) (merge_raw_timeline raw) ∧
      List.Chain' (fun a b : Seg Nat => a.1 < b.1) (merge_raw_timeline raw)) := by
  constructor
  · intro tls hwf
    obtain ⟨hgap, _, _⟩ :=
      mergePass_invariant (List.insertionSort lexLe (List.dedup tls.flatten))
        (List.Pairwise.chain' (List.sorted_insertionSort lexLe _))
        ((List.perm_insertionSort lexLe _).nodup_iff.mpr (List.nodup_dedup _))
    have hwf0 : ∀ p ∈ List.insertionSort lexLe (List.dedup tls.flatten), p.1 < p.2 := by
      intro p hp
      exact hwf p (List.mem_dedup.mp ((List.perm_insertionSort lexLe _).mem_iff.mp hp))
    have hwfM := mergePass_wf _ hwf0
    exact ⟨hgap, gap_wf_chain_startLt _ hgap hwfM⟩
  · intro raw hord hwf
    obtain ⟨hgap, _⟩ := mergePass_weak raw hord
    have hwfM := mergePass_wf raw hwf
    exact ⟨hgap, gap_wf_chain_startLt _ hgap hwfM⟩

/-- Witness for C9 at concrete overlapping inputs. -/
theorem timeline_invariant_after_merge_witness :
    (List.Chain' (fun a b : Seg Int => a.2 < b.1) (merge_timelines [[((0 : Int), 2), (1, 5)]]) ∧
     List.Chain' (fun a b : Seg Int => a.1 < b.1) (merge_timelines [[((0 : Int), 2), (1, 5)]])) ∧
    (List.Chain' (fun a b : Seg Nat => a.2 < b.1) (merge_raw_timeline [((0 : Nat), 2), (1, 3)]) ∧
     List.Chain' (fun a b : Seg Nat => a.1 < b.1) (merge_raw_timeline [((0 : Nat), 2), (1, 3)])) :=
  ⟨timeline_invariant_after_merge.1 _ (by decide),
   timeline_invariant_after_merge.2 _ (List.chain'_pair.mpr (by decide)) (by decide)⟩

/-- C8: gain computation over zero speech intervals is fatal and guarded
before the percentile is taken: `_calculate_gain_adjustment` errors whenever
the per-interval loudness list is empty, and `from_audio` returns early on an
empty merged timeline — with an empty segments directory, no gain computation
and no segment export. -/
theorem gain_empty_guard :
    (∀ (dBFS : Seg Nat → ℚ) (timeline : List (Seg Nat)) (target_dBFS : ℚ),
      timeline.map dBFS = [] →
      calculate_gain_adjustment dBFS timeline target_dBFS =
        Except.error "[Warning] No speech segments detected.") ∧
    (∀ (loud : Nat → Bool) (dBFS : Seg Nat → ℚ)
      (duration chunk_size_ms buffer_size_ms : Nat) (target_dBFS : ℚ),
      merge_raw_timeline (detect_raw_timeline loud duration chunk_size_ms buffer_size_ms) = [] →
      from_audio true loud dBFS duration chunk_size_ms buffer_size_ms target_dBFS =
        Except.ok ⟨[], none, []⟩) := by
  constructor
  · intro dBFS timeline target_dBFS h
    unfold calculate_gain_adjustment
    rw [h]
    rfl
  · intro loud dBFS duration chunk_size_ms buffer_size_ms target_dBFS h
    unfold from_audio
    rw [h]
    rfl

/-- Witness for C8: a silent track takes the early-return path, and the gain
computation on its empty timeline errors. -/
theorem gain_empty_guard_witness :
    calculate_gain_adjustment zeroLoudness [] 0 =
      Except.error "[Warning] No speech segments detected." ∧
    merge_raw_timeline (detect_raw_timeline noLoudChunk 1000 500 100) = [] ∧
    from_audio true noLoudChunk zeroLoudness 1000 500 100 0 = Except.ok ⟨[], none, []⟩ :=
  ⟨gain_empty_guard.1 zeroLoudness [] 0 rfl, by decide,
    gain_empty_guard.2 noLoudChunk zeroLoudness 1000 500 100 0 (by decide)⟩

/-- C10: every interval produced by the raw speech detector is clamped to the
track: for every track (abstracted to its per-chunk loudness), every positive
chunk size and every buffer size, each produced `(start_ms, end_ms)` pair
satisfies `start_ms < end_ms ≤ duration` (and `0 ≤ start_ms` holds by the
`Nat` encoding of the clamp `max(0, i - buffer_size_ms)`). -/
theorem detect_raw_timeline_bounds (loud : Nat → Bool)
    (duration chunk_size_ms buffer_size_ms : Nat) (hc : 0 < chunk_size_ms) :
    ∀ se ∈ detect_raw_timeline loud duration chunk_size_ms buffer_size_ms,
      se.1 < se.2 ∧ se.2 ≤ duration := by
  intro se hse
  obtain ⟨hfin1, hfin2⟩ :=
    detect_fold_invariant loud duration chunk_size_ms buffer_size_ms hc
      (chunkStarts duration chunk_size_ms) ([], none)
      (chunkStarts_lt duration chunk_size_ms hc) (chunkStarts_sorted _ _)
      (by intro x hx; simp at hx) (by intro cur hcur; simp at hcur)
  unfold detect_raw_timeline at hse
  cases hfin : ((chunkStarts duration chunk_size_ms).foldl
      (detectStep loud duration chunk_size_ms buffer_size_ms) ([], none)).2 with
  | none =>
    rw [hfin] at hse
    exact hfin1 se hse
  | some cur =>
    rw [hfin] at hse
    rcases List.mem_append.mp hse with h | h
    · exact hfin1 se h
    · have hce : se = cur := by simpa using h
      rw [hce]
      exact hfin2 cur hfin

/-- Witness for C10: a track with a loud first chunk. -/
theorem detect_raw_timeline_bounds_witness :
    (0 < 500 ∧ ((0 : Nat), (600 : Nat)) ∈ detect_raw_timeline firstChunkLoud 1000 500 100) ∧
    ((0 : Nat), (600 : Nat)).1 < ((0 : Nat), (600 : Nat)).2 ∧
    ((0 : Nat), (600 : Nat)).2 ≤ 1000 :=
  ⟨⟨by decide, by decide⟩,
    detect_raw_timeline_bounds firstChunkLoud 1000 500 100 (by decide) _ (by decide)⟩

/-- C1 counterexample: on a well-formed comma-separated SRT input,
`combine_srt_files` writes the block with period millisecond separators
(`parse_srt` stores `start.replace(",", ".")` and that is what gets
written); the written file contains no comma at all, so its timestamp lines
are not `HH:MM:SS,mmm`. -/
theorem combine_srt_comma_counterexample :
    combine_srt_files [("a.srt", "1\n00:00:01,000 --> 00:00:02,000\nhi\n\n")] =
      Except.ok "1\n00:00:01.000 --> 00:00:02.000\na: hi\n\n" ∧
    ("1\n00:00:01.000 --> 00:00:02.000\na: hi\n\n".data.contains ',') = false ∧
    tsFmt ',' "00:00:01.000" = false ∧
    tsFmt '.' "00:00:01.000" = true := by
  refine ⟨rfl, by decide, by decide, by decide⟩

/-- C1 (amended): for every set of per-track SRT inputs whose timestamp
lines carry comma-formatted `HH:MM:SS,mmm` timestamps, the merged file
produced by `combine_srt_files` consists of sequential blocks
`index\nstart --> end\ntext\n\n` (numbered from 1, see `renderEntries`),
every timestamp is formatted `HH:MM:SS.mmm` with a PERIOD millisecond
separator, and every text line carries a `speaker: ` prefix. -/
theorem combine_srt_files_period_format :
    ∀ (files : List (String × String)) (out : String),
      combine_srt_files files = Except.ok out →
      (∀ fc ∈ files, ∀ block ∈ strSplitOn (strTrim fc.2) "\n\n",
        3 ≤ (strSplitOn block "\n").length →
        ∀ t ∈ strSplitOn ((strSplitOn block "\n").getD 1 "") " --> ",
          tsFmt ',' t = true) →
      ∃ entries, out = renderEntries entries ∧
        ∀ e ∈ entries, tsFmt '.' e.1 = true ∧ tsFmt '.' e.2.1 = true ∧
          ∃ speaker text, e.2.2 = speaker ++ ": " ++ text := by
  intro files out hok hfmt
  unfold combine_srt_files at hok
  cases hcol : collectEntries (files.filter (fun fc => ".srt".data.isSuffixOf fc.1.data)) with
  | error err => rw [hcol] at hok; simp at hok
  | ok all_entries =>
    rw [hcol] at hok
    simp only [Except.ok.injEq] at hok
    refine ⟨List.insertionSort entryLe all_entries, hok.symm, ?_⟩
    intro e he
    have he' : e ∈ all_entries := (List.perm_insertionSort entryLe all_entries).mem_iff.mp he
    obtain ⟨fc, hfc, es, hes, hein⟩ := collectEntries_mem _ _ hcol e he'
    have hfcmem : fc ∈ files := List.mem_of_mem_filter hfc
    obtain ⟨block, hblock, t1, t2, hlen, hts, hee⟩ :=
      parseBlocks_entry_shape (speaker_of_filename fc.1) _ es hes e hein
    have hfmt' := hfmt fc hfcmem block hblock hlen
    have h1 : tsFmt ',' t1 = true := hfmt' t1 (by rw [hts]; exact List.mem_cons_self _ _)
    have h2 : tsFmt ',' t2 = true := hfmt' t2 (by rw [hts]; simp)
    rw [hee]
    exact ⟨tsFmt_commaToDot _ h1, tsFmt_commaToDot _ h2, speaker_of_filename fc.1, _, rfl⟩

/-- Witness for the amended C1 at a concrete comma-formatted input file. -/
theorem combine_srt_files_period_format_witness :
    ∃ entries, "1\n00:00:01.000 --> 00:00:02.000\na: hi\n\n" = renderEntries entries ∧
      ∀ e ∈ entries, tsFmt '.' e.1 = true ∧ tsFmt '.' e.2.1 = true ∧
        ∃ speaker text, e.2.2 = speaker ++ ": " ++ text :=
  combine_srt_files_period_format
    [("a.srt", "1\n00:00:01,000 --> 00:00:02,000\nhi\n\n")]
    "1\n00:00:01.000 --> 00:00:02.000\na: hi\n\n" rfl (by decide)

end Waddle
